import Mathlib

/-!
Verification of the document-to-retrieval pipeline
(`backend/services/pdf_processor.py`, `backend/services/vectorizer.py`,
`python/backend/services/rag_service.py`).

Strings are modelled as `List Char`; Python slices, `str.rfind`,
`str.strip`, and the relevant `re.sub` calls are embedded explicitly.
The chunking `while` loop is embedded with explicit fuel because the
source loop does not terminate on all inputs (see claim C1).
-/

set_option autoImplicit false

/-- The ASCII whitespace characters recognised by Python's `str.strip`
and by the character class of the cleaning regexes (the Unicode
whitespace codepoints never occur in the inputs considered here). -/
def isPySpace (c : Char) : Bool :=
  c = ' ' || c = '\t' || c = '\n' || c = '\r' || c = Char.ofNat 11 || c = Char.ofNat 12

/-- Python `str.strip()`: drop leading and trailing whitespace. -/
def pyStrip (l : List Char) : List Char :=
  ((l.dropWhile isPySpace).reverse.dropWhile isPySpace).reverse

/-- Backward scan implementing the search of `rfindAux` from index
`lo + k - 1` downward: the highest `i` in `[lo, lo + k)` with
`text.get? i = some c`. -/
def rfindAux (text : List Char) (c : Char) (lo : Nat) : Nat → Option Nat
  | 0 => none
  | k + 1 => if text.get? (lo + k) = some c then some (lo + k) else rfindAux text c lo k

/-- Python `text.rfind(c, lo, hi)`: the highest index `i` with
`lo ≤ i < min hi (len text)` and `text[i] = c`, or `none` (Python `-1`). -/
def rfind (text : List Char) (c : Char) (lo hi : Nat) : Option Nat :=
  rfindAux text c lo (min hi text.length - lo)

namespace PDFProcessor

/-- One emitted chunk record of `PDFProcessor.chunk_text`
(`pdf_processor.py` lines 91-97).  The Python key `end` is spelled
`stop` here because `end` is a Lean keyword. -/
structure Chunk where
  text : List Char
  start : Nat
  stop : Nat
  chunk_index : Nat
  char_count : Nat
  deriving DecidableEq

/-- The boundary computation of one iteration of `chunk_text`
(`pdf_processor.py` lines 75-86): candidate end `start + chunk_size`;
kept as is when it reaches the end of the text, otherwise moved just
past the last period when `last_period > start` and
`last_period > last_newline`, else just past the last newline when
`last_newline > start`, else kept at the raw cut.  Python's `-1` result
of `rfind` is `none`, and `-1 > start` and `-1 > -1` are false. -/
def chunkEnd (text : List Char) (cs start : Nat) : Nat :=
  if text.length ≤ start + cs then start + cs
  else
    match rfind text '.' start (start + cs), rfind text '\n' start (start + cs) with
    | some i, some j =>
      if start < i ∧ j < i then i + 1
      else if start < j then j + 1 else start + cs
    | some i, none => if start < i then i + 1 else start + cs
    | none, some j => if start < j then j + 1 else start + cs
    | none, none => start + cs

/-- The cursor advance of `chunk_text` (`pdf_processor.py` lines
100-102): `start = end - overlap`, with fallback `start = end` only
when `end - overlap < 0`. -/
def nextStart (e ov : Nat) : Nat :=
  if e < ov then e else e - ov

/-- The `while start < len(text)` loop of `chunk_text`
(`pdf_processor.py` lines 74-103), with explicit fuel: the slice
`text[start:end]` is stripped, emitted when non-empty, and the cursor
advances by `nextStart`. -/
def chunkLoop (text : List Char) (cs ov : Nat) : Nat → Nat → Nat → List Chunk
  | 0, _, _ => []
  | fuel + 1, start, idx =>
    if start < text.length then
      if (pyStrip ((text.drop start).take (chunkEnd text cs start - start))).isEmpty then
        chunkLoop text cs ov fuel (nextStart (chunkEnd text cs start) ov) idx
      else
        ⟨pyStrip ((text.drop start).take (chunkEnd text cs start - start)), start,
          chunkEnd text cs start, idx,
          (pyStrip ((text.drop start).take (chunkEnd text cs start - start))).length⟩ ::
          chunkLoop text cs ov fuel (nextStart (chunkEnd text cs start) ov) (idx + 1)
    else []

/-- `PDFProcessor.chunk_text` (`pdf_processor.py` lines 64-104). -/
def chunk_text (fuel : Nat) (text : List Char) (cs ov : Nat) : List Chunk :=
  chunkLoop text cs ov fuel 0 0

end PDFProcessor

theorem length_dropWhile_le (p : Char → Bool) (l : List Char) :
    (l.dropWhile p).length ≤ l.length := by
  induction l with
  | nil => simp
  | cons c rest ih =>
    rw [List.dropWhile_cons]
    split
    · exact Nat.le_succ_of_le ih
    · simp

namespace PDFProcessor

/-- First substitution of `clean_text` (`pdf_processor.py` line 58):
`re.sub(r'\s+', ' ', text)` replaces every maximal run of whitespace by
a single space.  The flag records whether the scan is inside a
whitespace run whose single `' '` has already been emitted. -/
def collapseWsAux : Bool → List Char → List Char
  | _, [] => []
  | inWs, c :: rest =>
    if isPySpace c then
      if inWs then collapseWsAux true rest
      else ' ' :: collapseWsAux true rest
    else c :: collapseWsAux false rest

/-- `re.sub(r'\s+', ' ', text)` (`pdf_processor.py` line 58). -/
def collapseWs (l : List Char) : List Char :=
  collapseWsAux false l

/-- Second substitution of `clean_text` (`pdf_processor.py` line 59):
`re.sub(r'\n\s*\n', '\n\n', text)`.  A match is a newline followed by a
greedy whitespace run whose last character is again a newline; the
match is replaced by two newlines and scanning resumes after it.  The
fuel starts at the list length, which one consumption per emitted
character never exhausts. -/
def sub2Aux : Nat → List Char → List Char
  | 0, l => l
  | _ + 1, [] => []
  | fuel + 1, c :: rest =>
    if c = '\n' then
      match rfind (rest.takeWhile isPySpace) '\n' 0 (rest.takeWhile isPySpace).length with
      | some m => '\n' :: '\n' :: sub2Aux fuel (rest.drop (m + 1))
      | none => c :: sub2Aux fuel rest
    else c :: sub2Aux fuel rest

/-- `re.sub(r'\n\s*\n', '\n\n', text)` (`pdf_processor.py` line 59). -/
def sub2 (l : List Char) : List Char :=
  sub2Aux l.length l

/-- `PDFProcessor.clean_text` (`pdf_processor.py` lines 54-62): the two
substitutions followed by `str.strip()`; empty input short-circuits. -/
def clean_text (l : List Char) : List Char :=
  if l.isEmpty then [] else pyStrip (sub2 (collapseWs l))

/-- One entry of `pages_info` built by `extract_text_from_pdf`
(`pdf_processor.py` lines 31-35). -/
structure PageInfo where
  page : Nat
  text : List Char
  char_count : Nat
  deriving DecidableEq

/-- The dictionary returned by `extract_text_from_pdf`
(`pdf_processor.py` lines 42-49); the path fields carry no logic and
are not modelled. -/
structure Doc where
  full_text : List Char
  pages : List PageInfo
  total_pages : Nat
  total_chars : Nat
  deriving DecidableEq

/-- The page loop of `extract_text_from_pdf` (`pdf_processor.py` lines
26-35): pages are numbered from `n`, a page with falsy raw text is
skipped, the others contribute their cleaned text. -/
def buildInfos : List (List Char) → Nat → List PageInfo
  | [], _ => []
  | raw :: rest, n =>
    if raw.isEmpty then buildInfos rest (n + 1)
    else ⟨n, clean_text raw, (clean_text raw).length⟩ :: buildInfos rest (n + 1)

/-- `PDFProcessor.extract_text_from_pdf` (`pdf_processor.py` lines
20-52) over the outcome of the PDF library: either an exception while
opening or reading the file (`Except.error`, the `except` branch at
line 50 prints and returns `None`) or the list of raw page texts.  When
no page has truthy text the function also returns `None` (line 37). -/
def extract_text_from_pdf (input : Except Unit (List (List Char))) : Option Doc :=
  match input with
  | .error _ => none
  | .ok raws =>
    let infos := buildInfos raws 1
    if infos.isEmpty then none
    else
      let full := List.intercalate ['\n', '\n'] (infos.map PageInfo.text)
      some ⟨full, infos, infos.length, full.length⟩

/-- The accumulation loop of `_get_page_for_position`
(`pdf_processor.py` lines 130-134): running total `cur` grows by
`char_count + 2` per page; the first page whose total exceeds the
offset is returned. -/
def pageLoop (pos : Nat) : Nat → List PageInfo → Option Nat
  | _, [] => none
  | cur, p :: rest =>
    if pos < cur + p.char_count + 2 then some p.page
    else pageLoop pos (cur + p.char_count + 2) rest

/-- `PDFProcessor._get_page_for_position` (`pdf_processor.py` lines
129-135), with the fallback `pages[-1]['page'] if pages else 1`. -/
def get_page_for_position (pos : Nat) (pages : List PageInfo) : Nat :=
  match pageLoop pos 0 pages with
  | some n => n
  | none => ((pages.getLast?).map PageInfo.page).getD 1

end PDFProcessor

/-- The decimal digit character of `m < 10`, as produced by Python's
`str` on a nonnegative integer. -/
def digitCh (m : Nat) : Char :=
  Char.ofNat (48 + m)

/-- Fuel-indexed body of `natRepr`; the fuel `n + 1` is never
exhausted because the value shrinks strictly at every step. -/
def natReprAux : Nat → Nat → List Char
  | 0, _ => []
  | fuel + 1, n =>
    if n < 10 then [digitCh n]
    else natReprAux fuel (n / 10) ++ [digitCh (n % 10)]

/-- Python `str` on a nonnegative integer: standard decimal notation,
most significant digit first. -/
def natRepr (n : Nat) : List Char :=
  natReprAux (n + 1) n

namespace RAGService

/-- The metadata dictionary attached to each stored chunk
(`pdf_processor.py` lines 117-124) as read back by `RAGService.query`
(`rag_service.py` lines 29-41); `total_chunks` and `char_count` are
never read there and are not modelled. -/
structure RMeta where
  source : List Char
  file_path : List Char
  page : Nat
  chunk_index : Nat
  deriving DecidableEq

/-- One formatted search result (`vectorizer.py` lines 75-79): text,
metadata and an optional distance.  Distances are modelled as rationals
(`chromadb` returns floating-point cosine distances; only order, sign
and the zero test matter here). -/
structure RResult where
  text : List Char
  metadata : RMeta
  distance : Option ℚ
  deriving DecidableEq

/-- One entry of the `sources` list built by `RAGService.query`
(`rag_service.py` lines 37-43). -/
structure SourceRec where
  source : List Char
  file_path : List Char
  page : Nat
  chunk_index : Nat
  relevance_score : Option ℚ
  deriving DecidableEq

/-- The return value of `RAGService.query` (`rag_service.py` lines
48-51). -/
structure RagOut where
  context : List Char
  sources : List SourceRec
  deriving DecidableEq

/-- The dedup key `f"{source}_p{page}"` of `RAGService.query`
(`rag_service.py` line 35). -/
def sourceKey (m : RMeta) : List Char :=
  m.source ++ '_' :: 'p' :: natRepr m.page

/-- The source record appended for a result seen for the first time
(`rag_service.py` lines 37-43): `relevance_score` is
`1.0 - distance if distance else None`, so a missing distance and a
distance of exactly `0` (both falsy in Python) yield `None`. -/
def mkSource (r : RResult) : SourceRec :=
  ⟨r.metadata.source, r.metadata.file_path, r.metadata.page, r.metadata.chunk_index,
    match r.distance with
    | some d => if d = 0 then none else some (1 - d)
    | none => none⟩

/-- The numbered context entry `f"[{i}] {text}"` (`rag_service.py` line
33). -/
def render (i : Nat) (t : List Char) : List Char :=
  '[' :: natRepr i ++ ']' :: ' ' :: t

/-- The `for i, result in enumerate(results, 1)` loop of
`RAGService.query` (`rag_service.py` lines 27-44): every result
contributes its numbered context entry; a result whose key is already
in `seen_sources` contributes no source record. -/
def queryLoop : List RResult → Nat → List (List Char) → List (List Char) × List SourceRec
  | [], _, _ => ([], [])
  | r :: rest, i, seen =>
    if sourceKey r.metadata ∈ seen then
      (render i r.text :: (queryLoop rest (i + 1) seen).1,
        (queryLoop rest (i + 1) seen).2)
    else
      (render i r.text :: (queryLoop rest (i + 1) (sourceKey r.metadata :: seen)).1,
        mkSource r :: (queryLoop rest (i + 1) (sourceKey r.metadata :: seen)).2)

/-- `RAGService.query` (`rag_service.py` lines 14-51) applied to the
already-retrieved ranked result list: empty results give empty context
and sources, otherwise the loop builds both and the context entries are
joined with a blank line. -/
def query (results : List RResult) : RagOut :=
  if results.isEmpty then ⟨[], []⟩
  else ⟨List.intercalate ['\n', '\n'] (queryLoop results 1 []).1,
    (queryLoop results 1 []).2⟩

/-- The context the spec prescribes: results numbered `1..N` in ranked
order, each rendered as `"[i] <text>"`. -/
def renderAll : List RResult → Nat → List (List Char)
  | [], _ => []
  | r :: rest, i => render i r.text :: renderAll rest (i + 1)

/-- The context the spec prescribes: the numbered entries joined with a
blank line. -/
def specContext (results : List RResult) : List Char :=
  List.intercalate ['\n', '\n'] (renderAll results 1)

/-- The deduplication the spec prescribes, by the pair
`(source, page)`: the first occurrence of each distinct pair is kept,
later occurrences of the same pair are excluded. -/
def specSources : List RResult → List (List Char × Nat) → List SourceRec
  | [], _ => []
  | r :: rest, seen =>
    if (r.metadata.source, r.metadata.page) ∈ seen then specSources rest seen
    else mkSource r :: specSources rest ((r.metadata.source, r.metadata.page) :: seen)

end RAGService

namespace Vectorizer

/-- The metadata fields `add_documents` reads (`vectorizer.py` line
42). -/
structure VMeta where
  source : List Char
  chunk_index : Nat
  deriving DecidableEq

/-- One chunk dictionary passed to `add_documents` (`vectorizer.py`
lines 37-38). -/
structure VChunk where
  text : List Char
  metadata : VMeta
  deriving DecidableEq

/-- The record id `f"{meta['source']}_{meta['chunk_index']}"`
(`vectorizer.py` line 42). -/
def chunkId (m : VMeta) : List Char :=
  m.source ++ '_' :: natRepr m.chunk_index

/-- The id list computed by `add_documents` (`vectorizer.py` line
42). -/
def ids (chunks : List VChunk) : List (List Char) :=
  chunks.map (fun c => chunkId c.metadata)

/-- The persisted collection, as a list of id-keyed records. -/
abbrev Store := List (List Char × VChunk)

/-- The ids present in a store. -/
def keys (s : Store) : List (List Char) :=
  s.map Prod.fst

/-- Modelled from the spec: the Index Store contract of §4.4 for
`add` — records are keyed by their deterministic id, and storing under
an existing id overwrites the record instead of duplicating it.  The
concrete store (`chromadb`) is an external dependency, not code of this
repository. -/
def upsert : Store → List Char → VChunk → Store
  | [], k, v => [(k, v)]
  | (k', v') :: rest, k, v =>
    if k' = k then (k, v) :: rest else (k', v') :: upsert rest k v

/-- `Vectorizer.add_documents` (`vectorizer.py` lines 33-49): no-op on
empty input, otherwise each chunk is stored under
`f"{source}_{chunk_index}"`. -/
def add_documents (s : Store) (chunks : List VChunk) : Store :=
  if chunks.isEmpty then s
  else chunks.foldl (fun st c => upsert st (chunkId c.metadata) c) s

end Vectorizer


/-! ## Lemmas about `rfind` -/

theorem rfindAux_sound (text : List Char) (c : Char) (lo : Nat) :
    ∀ k p, rfindAux text c lo k = some p →
      lo ≤ p ∧ p < lo + k ∧ text.get? p = some c := by
  intro k
  induction k with
  | zero => intro p h; simp [rfindAux] at h
  | succ k ih =>
    intro p h
    rw [rfindAux] at h
    split at h
    · rename_i hc
      cases h
      exact ⟨by omega, by omega, hc⟩
    · have := ih p h
      exact ⟨this.1, by omega, this.2.2⟩

theorem rfindAux_max (text : List Char) (c : Char) (lo : Nat) :
    ∀ k j, j < k → text.get? (lo + j) = some c →
      (∀ q, j < q → q < k → text.get? (lo + q) ≠ some c) →
      rfindAux text c lo k = some (lo + j) := by
  intro k
  induction k with
  | zero => omega
  | succ k ih =>
    intro j hj hc hmax
    rw [rfindAux]
    by_cases hjk : j = k
    · subst hjk
      rw [if_pos hc]
    · rw [if_neg (hmax k (by omega) (by omega))]
      exact ih j (by omega) hc (fun q h1 h2 => hmax q h1 (by omega))

theorem rfind_sound (text : List Char) (c : Char) (lo hi p : Nat)
    (h : rfind text c lo hi = some p) :
    lo ≤ p ∧ p < hi ∧ p < text.length ∧ text.get? p = some c := by
  rw [rfind] at h
  have haux := rfindAux_sound text c lo _ p h
  have hlen : p < text.length := by
    rcases Nat.lt_or_ge p text.length with h1 | h1
    · exact h1
    · have h2 := haux.2.2
      rw [List.get?_eq_none.mpr h1] at h2
      cases h2
  have hmin := Nat.min_le_left hi text.length
  exact ⟨haux.1, by have := haux.2.1; omega, hlen, haux.2.2⟩

theorem rfind_eq_some (text : List Char) (c : Char) (lo hi p : Nat)
    (hlo : lo ≤ p) (hhi : p < hi) (hlen : p < text.length)
    (hc : text.get? p = some c)
    (hmax : ∀ m, p < m → m < hi → text.get? m ≠ some c) :
    rfind text c lo hi = some p := by
  rw [rfind]
  have hp : lo + (p - lo) = p := by omega
  have hmin1 := Nat.min_le_left hi text.length
  have hmin2 := Nat.min_le_right hi text.length
  have hmin3 : p < min hi text.length := by omega
  rw [show some p = some (lo + (p - lo)) by rw [hp]]
  refine rfindAux_max text c lo _ (p - lo) (by omega) (by rw [hp]; exact hc) ?_
  intro q h1 h2
  exact hmax (lo + q) (by omega) (by omega)

theorem rfind_none_or_le (text : List Char) (c : Char) (lo hi start : Nat)
    (hstart : lo = start)
    (hno : ∀ q, q < hi → start < q → text.get? q ≠ some c) :
    rfind text c lo hi = none ∨ rfind text c lo hi = some start := by
  cases h : rfind text c lo hi with
  | none => exact Or.inl rfl
  | some p =>
    right
    have hs := rfind_sound text c lo hi p h
    by_cases hp : p = start
    · rw [hp]
    · exact absurd hs.2.2.2 (hno p hs.2.1 (by omega))

/-! ## Lemmas about the chunking loop -/

namespace PDFProcessor

theorem chunkEnd_le (text : List Char) (cs start : Nat) :
    chunkEnd text cs start ≤ start + cs := by
  rw [chunkEnd]
  split
  · exact Nat.le_refl _
  · cases h1 : rfind text '.' start (start + cs) with
    | none =>
      cases h2 : rfind text '\n' start (start + cs) with
      | none => exact Nat.le_refl _
      | some j =>
        have hj := rfind_sound text '\n' start (start + cs) j h2
        dsimp only
        split <;> omega
    | some i =>
      have hi := rfind_sound text '.' start (start + cs) i h1
      cases h2 : rfind text '\n' start (start + cs) with
      | none =>
        dsimp only
        split <;> omega
      | some j =>
        have hj := rfind_sound text '\n' start (start + cs) j h2
        dsimp only
        split
        · omega
        · split <;> omega

theorem chunkEnd_final (text : List Char) (cs start : Nat)
    (h : text.length ≤ start + cs) : chunkEnd text cs start = start + cs := by
  rw [chunkEnd]
  exact if_pos h

theorem chunkLoop_stop (text : List Char) (cs ov fuel start idx : Nat)
    (h : text.length ≤ start) : chunkLoop text cs ov fuel start idx = [] := by
  cases fuel with
  | zero => rfl
  | succ fuel => rw [chunkLoop, if_neg (by omega)]

theorem length_pyStrip_le (l : List Char) : (pyStrip l).length ≤ l.length := by
  rw [pyStrip, List.length_reverse]
  calc ((l.dropWhile isPySpace).reverse.dropWhile isPySpace).length
      ≤ (l.dropWhile isPySpace).reverse.length := length_dropWhile_le _ _
    _ = (l.dropWhile isPySpace).length := List.length_reverse _
    _ ≤ l.length := length_dropWhile_le _ _

theorem chunkLoop_mem (text : List Char) (cs ov : Nat) :
    ∀ fuel start idx c, c ∈ chunkLoop text cs ov fuel start idx →
      c.char_count = c.text.length ∧ c.text.length ≤ cs ∧ c.text ≠ [] := by
  intro fuel
  induction fuel with
  | zero => intro start idx c h; simp [chunkLoop] at h
  | succ fuel ih =>
    intro start idx c h
    rw [chunkLoop] at h
    split at h
    · split at h
      · exact ih _ _ c h
      · rename_i hne
        rcases List.mem_cons.mp h with hc | hc
        · subst hc
          refine ⟨rfl, ?_, fun habs => hne (by simpa using habs)⟩
          calc (pyStrip ((text.drop start).take (chunkEnd text cs start - start))).length
              ≤ ((text.drop start).take (chunkEnd text cs start - start)).length :=
                length_pyStrip_le _
            _ ≤ chunkEnd text cs start - start := by
                rw [List.length_take]; omega
            _ ≤ cs := by have := chunkEnd_le text cs start; omega
        · exact ih _ _ c hc
    · simp at h

end PDFProcessor

/-! ## Claim theorems C1, C2, C10 -/

/-- The failing input of C1: a period at index 4 (so `end` becomes 5
and the cursor `5 - 5 = 0` never advances) followed by twenty
periodless, newline-free characters so the candidate end `0 + 20` stays
inside the text. -/
def c1text : List Char := "abcd.xxxxxxxxxxxxxxxxxxxx".data

/-- C1: the claim asserts termination for every `chunk_size ≥ 1`,
`0 ≤ overlap < chunk_size`, with at most `ceil(len/(chunk_size -
overlap))` chunks, the cursor falling back to `start = end` whenever
`end - overlap` would not advance it.  The code only falls back when
`end - overlap < 0` (`pdf_processor.py` lines 101-102): on `c1text`
with `chunk_size = 20`, `overlap = 5` the boundary lands at 5 and the
cursor map sends `start = 0` back to `0` while `0 < len`, so the
`while` loop never terminates and emits one copy of `"abcd."` per
iteration — five chunks after five loop steps already exceed the
claimed ceiling `ceil(25/15) = 2`. -/
theorem c1_chunk_text_nonterminating :
    PDFProcessor.chunkEnd c1text 20 0 = 5 ∧
    PDFProcessor.nextStart (PDFProcessor.chunkEnd c1text 20 0) 5 = 0 ∧
    0 < c1text.length ∧
    (c1text.length + (20 - 5) - 1) / (20 - 5) = 2 ∧
    (PDFProcessor.chunk_text 5 c1text 20 5).length = 5 ∧
    (PDFProcessor.chunk_text 5 c1text 20 5).map PDFProcessor.Chunk.start =
      [0, 0, 0, 0, 0] := by
  decide

/-- The counterexample text of C2: eight non-whitespace characters,
shorter than the chunk size 10. -/
def c2text : List Char := "abcdefgh".data

/-- C2 is false as stated: on the 8-character non-whitespace `c2text`
with `chunk_size = 10 > 8` and `overlap = 5`, the first iteration has
candidate end `10 ≥ 8` and emits the whole text, yet the cursor then
moves to `10 - 5 = 5 < 8` and the loop runs again, emitting a second
chunk `"fgh"` — two chunks for a document shorter than `chunk_size`,
and a further iteration after the chunk that reached the end of the
text. -/
theorem c2_counterexample :
    c2text ≠ [] ∧ pyStrip c2text = c2text ∧ c2text.length < 10 ∧
    c2text.length ≤ 0 + 10 ∧
    PDFProcessor.nextStart (PDFProcessor.chunkEnd c2text 10 0) 5 < c2text.length ∧
    (PDFProcessor.chunk_text 10 c2text 10 5).length = 2 := by
  decide

/-- C2 (amended): when the candidate end `start + chunk_size` reaches
or exceeds the text length the emitted chunk extends exactly to the end
of the text, but the loop continues whenever the next cursor
`start + chunk_size - overlap` is still inside the text; it stops
exactly when the cursor reaches the text length.  In particular a
non-whitespace text of length at most `chunk_size - overlap` yields
exactly one chunk (texts with `chunk_size - overlap < len <
chunk_size` may yield more, see the counterexample). -/
theorem c2_final_chunk :
    (∀ (text : List Char) (cs start : Nat), text.length ≤ start + cs →
      (text.drop start).take (PDFProcessor.chunkEnd text cs start - start) = text.drop start) ∧
    (∀ (text : List Char) (cs ov start : Nat), text.length ≤ start + cs → ov ≤ start + cs →
      PDFProcessor.nextStart (PDFProcessor.chunkEnd text cs start) ov = start + cs - ov) ∧
    (∀ (text : List Char) (cs ov fuel start idx : Nat), text.length ≤ start →
      PDFProcessor.chunkLoop text cs ov fuel start idx = []) ∧
    (∀ (text : List Char) (cs ov fuel : Nat), pyStrip text ≠ [] → ov < cs →
      text.length ≤ cs - ov →
      PDFProcessor.chunk_text (fuel + 1) text cs ov =
        [⟨pyStrip text, 0, cs, 0, (pyStrip text).length⟩]) := by
  refine ⟨?_, ?_, ?_, ?_⟩
  · intro text cs start h
    rw [PDFProcessor.chunkEnd_final text cs start h]
    have hsub : start + cs - start = cs := by omega
    rw [hsub]
    exact List.take_of_length_le (by rw [List.length_drop]; omega)
  · intro text cs ov start h hov
    rw [PDFProcessor.chunkEnd_final text cs start h, PDFProcessor.nextStart,
      if_neg (by omega)]
  · intro text cs ov fuel start idx h
    exact PDFProcessor.chunkLoop_stop text cs ov fuel start idx h
  · intro text cs ov fuel hps hov hlen
    have htext : text ≠ [] := by
      intro habs
      exact hps (by rw [habs]; rfl)
    have hpos : 0 < text.length := List.length_pos.mpr htext
    have hce : PDFProcessor.chunkEnd text cs 0 = cs := by
      have := PDFProcessor.chunkEnd_final text cs 0 (by omega)
      omega
    rw [PDFProcessor.chunk_text, PDFProcessor.chunkLoop, if_pos hpos, hce]
    rw [List.drop_zero]
    have hsub : cs - 0 = cs := by omega
    rw [hsub]
    rw [List.take_of_length_le (by omega)]
    rw [if_neg (fun habs => hps (List.isEmpty_iff.mp habs))]
    rw [PDFProcessor.nextStart, if_neg (by omega)]
    rw [PDFProcessor.chunkLoop_stop text cs ov fuel (cs - ov) 1 (by omega)]

/-- C2 witness: the amended statement applied to the two-character text
`"ab"` with `chunk_size = 5`, `overlap = 2`: one chunk, covering the
whole text. -/
theorem c2_final_chunk_witness :
    PDFProcessor.chunk_text 3 ("ab".data) 5 2 =
      [⟨pyStrip ("ab".data), 0, 5, 0, (pyStrip ("ab".data)).length⟩] :=
  c2_final_chunk.2.2.2 ("ab".data) 5 2 2 (by decide) (by decide) (by decide)

/-- C10: every chunk emitted by `chunk_text` has non-empty trimmed
text of length at most `chunk_size` (with no boundary slack at all),
and its `char_count` equals that length. -/
theorem c10_chunk_invariants :
    ∀ (text : List Char) (cs ov fuel : Nat) (c : PDFProcessor.Chunk),
      c ∈ PDFProcessor.chunk_text fuel text cs ov →
      c.char_count = c.text.length ∧ c.text.length ≤ cs ∧ c.text ≠ [] := by
  intro text cs ov fuel c h
  exact PDFProcessor.chunkLoop_mem text cs ov fuel 0 0 c h

/-- C10 witness: the invariants evaluated on the single chunk produced
from `"ab"` with `chunk_size = 5`, `overlap = 2`. -/
theorem c10_chunk_invariants_witness :
    (⟨"ab".data, 0, 5, 0, 2⟩ : PDFProcessor.Chunk).char_count =
        (⟨"ab".data, 0, 5, 0, 2⟩ : PDFProcessor.Chunk).text.length ∧
      (⟨"ab".data, 0, 5, 0, 2⟩ : PDFProcessor.Chunk).text.length ≤ 5 ∧
      (⟨"ab".data, 0, 5, 0, 2⟩ : PDFProcessor.Chunk).text ≠ [] :=
  c10_chunk_invariants ("ab".data) 5 2 3 ⟨"ab".data, 0, 5, 0, 2⟩ (by decide)

/-- The counterexample text of C3: a period at index 0 (the window
start) and no other period or newline in the first window. -/
def c3text : List Char := ".aaaaaaaab".data

/-- The example text of C3 (spec §8). -/
def c3extext : List Char := "Sentence one. Sentence two. Sentence three.".data

/-- C3 is false as stated: on `c3text` with `chunk_size = 5`,
`overlap = 0`, the last period of the window `[0, 5)` is at index 0 and
lies later than the last newline (there is none), so the claim places
the chunk end just past it, at 1, making the first chunk `"."`.  The
code requires `last_period > start` (`pdf_processor.py` line 83), so
the boundary stays at the raw cut 5 and the first chunk is `".aaaa"`. -/
theorem c3_counterexample :
    rfind c3text '.' 0 5 = some 0 ∧ rfind c3text '\n' 0 5 = none ∧
    5 < c3text.length ∧
    PDFProcessor.chunkEnd c3text 5 0 = 5 ∧
    ((PDFProcessor.chunk_text 10 c3text 5 0).map PDFProcessor.Chunk.text).head? =
      some (".aaaa".data) ∧
    ".aaaa".data ≠ ['.'] := by
  decide

/-- C3 (amended): for an in-text candidate end, the chunk end is placed
just past the last period of `[start, start + chunk_size)` when that
period lies strictly after `start` and later than every newline of the
window; otherwise just past the last newline of the window when one
lies strictly after `start`; otherwise at the raw `start + chunk_size`
cut.  On the spec's example text with `chunk_size = 20`, `overlap = 5`
the first chunk is `"Sentence one."` ending at 13 and the next chunk
starts at `13 - 5 = 8`. -/
theorem c3_boundary_preference :
    (∀ (text : List Char) (cs start p : Nat), start + cs < text.length →
      text.get? p = some '.' → start < p → p < start + cs →
      (∀ q, q < start + cs → start ≤ q → text.get? q = some '.' → q ≤ p) →
      (∀ q, q < start + cs → start ≤ q → text.get? q = some '\n' → q < p) →
      PDFProcessor.chunkEnd text cs start = p + 1) ∧
    (∀ (text : List Char) (cs start j : Nat), start + cs < text.length →
      text.get? j = some '\n' → start < j → j < start + cs →
      (∀ q, q < start + cs → start ≤ q → text.get? q = some '\n' → q ≤ j) →
      (∀ q, q < start + cs → start ≤ q → text.get? q = some '.' → q ≤ start ∨ q ≤ j) →
      PDFProcessor.chunkEnd text cs start = j + 1) ∧
    (∀ (text : List Char) (cs start : Nat), start + cs < text.length →
      (∀ q, q < start + cs → start < q → text.get? q ≠ some '.') →
      (∀ q, q < start + cs → start < q → text.get? q ≠ some '\n') →
      PDFProcessor.chunkEnd text cs start = start + cs) ∧
    (((PDFProcessor.chunk_text 10 c3extext 20 5).map
        (fun c => (c.text, c.stop))).head? = some ("Sentence one.".data, 13) ∧
      ((PDFProcessor.chunk_text 10 c3extext 20 5).map
        PDFProcessor.Chunk.start).get? 1 = some 8) := by
  refine ⟨?_, ?_, ?_, by decide⟩
  · intro text cs start p hfin hp hgt hlt hmaxp hnl
    rw [PDFProcessor.chunkEnd, if_neg (by omega)]
    have e1 : rfind text '.' start (start + cs) = some p := by
      refine rfind_eq_some text '.' start (start + cs) p (by omega) hlt (by omega) hp ?_
      intro m h1 h2 hm
      have := hmaxp m h2 (by omega) hm
      omega
    rw [e1]
    cases e2 : rfind text '\n' start (start + cs) with
    | none =>
      dsimp only
      rw [if_pos hgt]
    | some j =>
      have hj := rfind_sound text '\n' start (start + cs) j e2
      have hjp : j < p := hnl j hj.2.1 hj.1 hj.2.2.2
      dsimp only
      rw [if_pos ⟨hgt, hjp⟩]
  · intro text cs start j hfin hj hgt hlt hmaxn hper
    rw [PDFProcessor.chunkEnd, if_neg (by omega)]
    have e2 : rfind text '\n' start (start + cs) = some j := by
      refine rfind_eq_some text '\n' start (start + cs) j (by omega) hlt (by omega) hj ?_
      intro m h1 h2 hm
      have := hmaxn m h2 (by omega) hm
      omega
    cases e1 : rfind text '.' start (start + cs) with
    | none =>
      rw [e2]
      dsimp only
      rw [if_pos hgt]
    | some i =>
      have hi := rfind_sound text '.' start (start + cs) i e1
      have hcase := hper i hi.2.1 hi.1 hi.2.2.2
      rw [e2]
      dsimp only
      have hni : ¬(start < i ∧ j < i) := by
        intro hand
        rcases hcase with h | h <;> omega
      rw [if_neg hni, if_pos hgt]
  · intro text cs start hfin hnop hnon
    rw [PDFProcessor.chunkEnd, if_neg (by omega)]
    rcases rfind_none_or_le text '.' start (start + cs) start rfl hnop with e1 | e1 <;>
      rcases rfind_none_or_le text '\n' start (start + cs) start rfl hnon with e2 | e2 <;>
        rw [e1, e2] <;> dsimp only
    · rw [if_neg (by omega)]
    · rw [if_neg (by omega)]
    · have hni : ¬(start < start ∧ start < start) := by omega
      rw [if_neg hni, if_neg (by omega)]

/-- C3 witness: the period branch of the amended statement applied to
`"ab.cdef"` with `chunk_size = 5`, `start = 0`: the last period of the
window `[0, 5)` is at index 2, strictly after the start, and there is
no newline, so the boundary lands at 3. -/
theorem c3_boundary_preference_witness :
    PDFProcessor.chunkEnd ("ab.cdef".data) 5 0 = 2 + 1 :=
  c3_boundary_preference.1 ("ab.cdef".data) 5 0 2 (by decide) (by decide)
    (by decide) (by decide) (by decide) (by decide)

/-! ## Lemmas about `clean_text` -/

namespace PDFProcessor

theorem collapseWsAux_mem (l : List Char) :
    ∀ (b : Bool) (c : Char), c ∈ collapseWsAux b l → isPySpace c = true → c = ' ' := by
  induction l with
  | nil => intro b c h; simp [collapseWsAux] at h
  | cons c0 rest ih =>
    intro b c h hws
    rw [collapseWsAux] at h
    split at h
    · split at h
      · exact ih _ c h hws
      · rcases List.mem_cons.mp h with hc | hc
        · exact hc
        · exact ih _ c hc hws
    · rcases List.mem_cons.mp h with hc | hc
      · rename_i hc0
        rw [hc] at hws
        exact absurd hws (by simp [hc0])
      · exact ih _ c hc hws

theorem collapseWsAux_head (l : List Char) :
    ∀ c, (collapseWsAux true l).head? = some c → isPySpace c = false := by
  induction l with
  | nil => intro c h; simp [collapseWsAux] at h
  | cons c0 rest ih =>
    intro c h
    rw [collapseWsAux] at h
    split at h
    · exact ih c h
    · rename_i hc0
      rw [List.head?_cons] at h
      cases h
      simpa using hc0

theorem collapseWsAux_chain (l : List Char) :
    ∀ b, List.Chain' (fun a b => isPySpace a = false ∨ isPySpace b = false)
      (collapseWsAux b l) := by
  induction l with
  | nil => intro b; rw [collapseWsAux]; exact List.chain'_nil
  | cons c0 rest ih =>
    intro b
    rw [collapseWsAux]
    split
    · split
      · exact ih true
      · rw [List.chain'_cons']
        refine ⟨?_, ih true⟩
        intro y hy
        exact Or.inr (collapseWsAux_head rest y hy)
    · rename_i hc0
      rw [List.chain'_cons']
      refine ⟨?_, ih false⟩
      intro y _
      exact Or.inl (by simpa using hc0)

theorem collapseWsAux_filter (l : List Char) :
    ∀ b, (collapseWsAux b l).filter (fun c => !isPySpace c) =
      l.filter (fun c => !isPySpace c) := by
  induction l with
  | nil => intro b; rw [collapseWsAux]
  | cons c0 rest ih =>
    intro b
    rw [collapseWsAux]
    split
    · rename_i hc0
      rw [List.filter_cons_of_neg (by simpa using hc0)]
      split
      · exact ih true
      · rw [List.filter_cons_of_neg (by simp [isPySpace])]
        exact ih true
    · rename_i hc0
      rw [List.filter_cons_of_pos (by simpa using hc0),
        List.filter_cons_of_pos (by simpa using hc0), ih false]

theorem sub2Aux_of_no_newline :
    ∀ (fuel : Nat) (l : List Char), '\n' ∉ l → sub2Aux fuel l = l := by
  intro fuel
  induction fuel with
  | zero => intro l _; rfl
  | succ fuel ih =>
    intro l hnl
    cases l with
    | nil => rfl
    | cons c rest =>
      rw [sub2Aux, if_neg (fun habs => hnl (by rw [← habs]; exact List.mem_cons_self c rest))]
      rw [ih rest (fun habs => hnl (List.mem_cons_of_mem c habs))]

theorem no_newline_collapseWs (l : List Char) : '\n' ∉ collapseWs l := by
  intro h
  have := collapseWsAux_mem l false '\n' h (by decide)
  cases this

theorem filter_dropWhile_isPySpace (l : List Char) :
    (l.dropWhile isPySpace).filter (fun c => !isPySpace c) =
      l.filter (fun c => !isPySpace c) := by
  induction l with
  | nil => rfl
  | cons c rest ih =>
    by_cases h : isPySpace c = true
    · rw [List.dropWhile_cons_of_pos h, List.filter_cons_of_neg (by simpa using h)]
      exact ih
    · rw [List.dropWhile_cons_of_neg h]

theorem filter_pyStrip (l : List Char) :
    (pyStrip l).filter (fun c => !isPySpace c) = l.filter (fun c => !isPySpace c) := by
  rw [pyStrip, List.filter_reverse, filter_dropWhile_isPySpace, List.filter_reverse,
    filter_dropWhile_isPySpace, List.reverse_reverse]

theorem mem_pyStrip (l : List Char) (c : Char) (h : c ∈ pyStrip l) : c ∈ l := by
  have h1 := (List.dropWhile_suffix (l := (l.dropWhile isPySpace).reverse) isPySpace).subset
  have h2 := (List.dropWhile_suffix (l := l) isPySpace).subset
  rw [pyStrip] at h
  have := h1 (List.mem_reverse.mp h)
  exact h2 (List.mem_reverse.mp this)

theorem head_pyStrip (l : List Char) (c : Char) (h : (pyStrip l).head? = some c) :
    isPySpace c = false := by
  rw [pyStrip, List.head?_reverse] at h
  obtain ⟨t, ht⟩ := List.dropWhile_suffix (l := (l.dropWhile isPySpace).reverse) isPySpace
  have hne : (l.dropWhile isPySpace).reverse.dropWhile isPySpace ≠ [] := by
    intro habs
    rw [habs] at h
    cases h
  have key : ((l.dropWhile isPySpace).reverse.dropWhile isPySpace).getLast? =
      ((l.dropWhile isPySpace).reverse).getLast? := by
    conv_rhs => rw [← ht]
    exact (List.getLast?_append_of_ne_nil t hne).symm
  rw [key, List.getLast?_reverse] at h
  have h2 := List.head?_dropWhile_not isPySpace l
  rw [h] at h2
  exact h2

theorem getLast_pyStrip (l : List Char) (c : Char)
    (h : (pyStrip l).getLast? = some c) : isPySpace c = false := by
  rw [pyStrip, List.getLast?_reverse] at h
  have := List.head?_dropWhile_not isPySpace (l.dropWhile isPySpace).reverse
  rw [h] at this
  exact this

theorem chain_pyStrip (l : List Char)
    (h : List.Chain' (fun a b => isPySpace a = false ∨ isPySpace b = false) l) :
    List.Chain' (fun a b => isPySpace a = false ∨ isPySpace b = false) (pyStrip l) := by
  have hsym : ∀ m : List Char,
      List.Chain' (fun a b => isPySpace a = false ∨ isPySpace b = false) m →
      List.Chain' (fun a b => isPySpace a = false ∨ isPySpace b = false) m.reverse := by
    intro m hm
    rw [List.chain'_reverse]
    exact hm.imp (fun a b hab => hab.symm)
  rw [pyStrip]
  refine hsym _ ?_
  refine List.Chain'.suffix ?_ (List.dropWhile_suffix isPySpace)
  refine hsym _ ?_
  exact h.suffix (List.dropWhile_suffix isPySpace)

end PDFProcessor

/-- The counterexample input of C4: a run of blank lines between two
letters. -/
def c4text : List Char := "a\n\n\n\nb".data

/-- C4 is false as stated: on an input containing a run of blank lines
the claim requires exactly one blank line at that position, but
`clean_text` turns `"a\n\n\n\nb"` into `"a b"` — the first
substitution `\s+ → ' '` has already consumed every newline, so no
blank line survives at all. -/
theorem c4_counterexample :
    PDFProcessor.clean_text c4text = "a b".data ∧
    '\n' ∉ PDFProcessor.clean_text c4text ∧
    "a b".data ≠ "a\n\nb".data := by
  decide

/-- C4 (amended): `clean_text` collapses every run of whitespace —
newlines included — to a single space and trims both ends; the
blank-line substitution is dead code because no newline survives the
first substitution, so the output never contains a newline or two
adjacent whitespace characters, begins and ends with non-whitespace,
and preserves the non-whitespace characters exactly. -/
theorem c4_clean_text_collapses_all_whitespace :
    ∀ l : List Char,
      PDFProcessor.clean_text l = pyStrip (PDFProcessor.collapseWs l) ∧
      '\n' ∉ PDFProcessor.clean_text l ∧
      (∀ c ∈ PDFProcessor.clean_text l, isPySpace c = true → c = ' ') ∧
      List.Chain' (fun a b => isPySpace a = false ∨ isPySpace b = false)
        (PDFProcessor.clean_text l) ∧
      (∀ c, (PDFProcessor.clean_text l).head? = some c → isPySpace c = false) ∧
      (∀ c, (PDFProcessor.clean_text l).getLast? = some c → isPySpace c = false) ∧
      (PDFProcessor.clean_text l).filter (fun c => !isPySpace c) =
        l.filter (fun c => !isPySpace c) := by
  intro l
  have hdead : PDFProcessor.clean_text l = pyStrip (PDFProcessor.collapseWs l) := by
    rw [PDFProcessor.clean_text]
    split
    · rename_i hl
      rw [List.isEmpty_iff.mp hl]
      rfl
    · rw [PDFProcessor.sub2,
        PDFProcessor.sub2Aux_of_no_newline _ _ (PDFProcessor.no_newline_collapseWs l)]
  refine ⟨hdead, ?_, ?_, ?_, ?_, ?_, ?_⟩
  · rw [hdead]
    intro habs
    exact PDFProcessor.no_newline_collapseWs l (PDFProcessor.mem_pyStrip _ _ habs)
  · rw [hdead]
    intro c hc
    exact PDFProcessor.collapseWsAux_mem l false c (PDFProcessor.mem_pyStrip _ _ hc)
  · rw [hdead]
    exact PDFProcessor.chain_pyStrip _ (PDFProcessor.collapseWsAux_chain l false)
  · rw [hdead]
    exact PDFProcessor.head_pyStrip _
  · rw [hdead]
    exact PDFProcessor.getLast_pyStrip _
  · rw [hdead, PDFProcessor.filter_pyStrip]
    exact PDFProcessor.collapseWsAux_filter l false

/-- C4 witness: the amended statement evaluated on `" a \t b "`: the
cleaned text is `"a b"`, whose head and last characters are
non-whitespace. -/
theorem c4_clean_text_witness :
    PDFProcessor.clean_text (" a \t b ".data) = "a b".data ∧
    isPySpace 'a' = false ∧ isPySpace 'b' = false :=
  ⟨by decide,
    (c4_clean_text_collapses_all_whitespace (" a \t b ".data)).2.2.2.2.1 'a' (by decide),
    (c4_clean_text_collapses_all_whitespace (" a \t b ".data)).2.2.2.2.2.1 'b' (by decide)⟩

/-! ## Lemmas about extraction and page resolution -/

namespace PDFProcessor

theorem extract_ok (raws : List (List Char)) :
    extract_text_from_pdf (.ok raws) =
      if (buildInfos raws 1).isEmpty then none
      else some ⟨List.intercalate ['\n', '\n'] ((buildInfos raws 1).map PageInfo.text),
        buildInfos raws 1, (buildInfos raws 1).length,
        (List.intercalate ['\n', '\n'] ((buildInfos raws 1).map PageInfo.text)).length⟩ :=
  rfl

theorem buildInfos_eq_nil_iff :
    ∀ (raws : List (List Char)) (n : Nat),
      buildInfos raws n = [] ↔ ∀ r ∈ raws, r = [] := by
  intro raws
  induction raws with
  | nil => intro n; simp [buildInfos]
  | cons raw rest ih =>
    intro n
    rw [buildInfos]
    split
    · rename_i hraw
      rw [ih (n + 1)]
      simp [List.isEmpty_iff.mp hraw]
    · rename_i hraw
      constructor
      · intro h
        exact absurd h (List.cons_ne_nil _ _)
      · intro h
        exact (hraw (by rw [h raw (List.mem_cons_self _ _)]; rfl)).elim

/-- The total width `char_count + 2` of a page list, as accumulated by
the loop of `_get_page_for_position`. -/
def pageSpan (pages : List PageInfo) : Nat :=
  (pages.map (fun p => p.char_count + 2)).sum

theorem pageLoop_shift :
    ∀ (pages : List PageInfo) (pos cur k : Nat),
      pageLoop (pos + k) (cur + k) pages = pageLoop pos cur pages := by
  intro pages
  induction pages with
  | nil => intro pos cur k; rfl
  | cons p rest ih =>
    intro pos cur k
    rw [pageLoop, pageLoop]
    by_cases h : pos < cur + p.char_count + 2
    · rw [if_pos (by omega), if_pos h]
    · rw [if_neg (by omega), if_neg h]
      have harg : cur + k + p.char_count + 2 = (cur + p.char_count + 2) + k := by omega
      rw [harg]
      exact ih pos (cur + p.char_count + 2) k

theorem pageLoop_none :
    ∀ (pages : List PageInfo) (pos cur : Nat), cur + pageSpan pages ≤ pos →
      pageLoop pos cur pages = none := by
  intro pages
  induction pages with
  | nil => intro pos cur _; rfl
  | cons p rest ih =>
    intro pos cur h
    rw [pageSpan, List.map_cons, List.sum_cons] at h
    rw [pageLoop, if_neg (by omega)]
    exact ih pos (cur + p.char_count + 2) (by rw [pageSpan]; omega)

end PDFProcessor

/-- C5 is false as stated: a failed extraction (the `except` branch)
and a readable document none of whose pages yields text both return
`None` — the two outcomes are the same value. -/
theorem c5_counterexample :
    PDFProcessor.extract_text_from_pdf (.error ()) =
      PDFProcessor.extract_text_from_pdf (.ok [[]]) ∧
    PDFProcessor.extract_text_from_pdf (.error ()) = none := by
  decide

/-- C5 (amended): `extract_text_from_pdf` conflates failure and "no
usable content": it returns `None` exactly when the read fails or
every page's raw text is empty, so callers cannot distinguish the two
outcomes by the return value and treat both as skip. -/
theorem c5_none_iff_error_or_no_text :
    ∀ input : Except Unit (List (List Char)),
      PDFProcessor.extract_text_from_pdf input = none ↔
        (∃ e, input = .error e) ∨
          (∃ raws, input = .ok raws ∧ ∀ r ∈ raws, r = []) := by
  intro input
  cases input with
  | error e =>
    exact ⟨fun _ => Or.inl ⟨e, rfl⟩, fun _ => rfl⟩
  | ok raws =>
    rw [PDFProcessor.extract_ok]
    constructor
    · intro h
      right
      refine ⟨raws, rfl, ?_⟩
      rw [← PDFProcessor.buildInfos_eq_nil_iff raws 1, ← List.isEmpty_iff]
      by_contra habs
      rw [if_neg habs] at h
      cases h
    · intro h
      rcases h with ⟨e, he⟩ | ⟨raws', hr, hall⟩
      · cases he
      · cases hr
        rw [if_pos (List.isEmpty_iff.mpr
          ((PDFProcessor.buildInfos_eq_nil_iff raws 1).mpr hall))]

/-- C5 witness: the amended characterization applied to a one-page
document whose page yields no text: the extraction returns `None`. -/
theorem c5_none_iff_witness :
    PDFProcessor.extract_text_from_pdf (.ok [[]]) = none :=
  (c5_none_iff_error_or_no_text (.ok [[]])).mpr
    (Or.inr ⟨[[]], rfl, by intro r hr; simpa using hr⟩)

/-- C6 is false as stated: with a page list whose first recorded page
is page 2 (page 1 of the document yielded no text and was skipped), a
chunk starting at offset 0 resolves to page 2, not page 1. -/
theorem c6_counterexample :
    PDFProcessor.get_page_for_position 0 [⟨2, "abc".data, 3⟩] = 2 ∧ (2 : Nat) ≠ 1 := by
  decide

/-- C6 (amended): `_get_page_for_position` returns the number of the
first page whose running total of `char_count + 2` exceeds the offset
(walking pages in order and skipping a page exactly when its whole span
lies at or before the offset); offset 0 resolves to the number of the
first recorded page — page 1 exactly when page 1 is recorded first; an
offset at or past the total span of all pages resolves to the last
page's number; an empty page list resolves to the sentinel 1. -/
theorem c6_page_resolution :
    (∀ (p : PDFProcessor.PageInfo) (rest : List PDFProcessor.PageInfo) (pos : Nat),
      pos < p.char_count + 2 →
      PDFProcessor.get_page_for_position pos (p :: rest) = p.page) ∧
    (∀ (p : PDFProcessor.PageInfo) (rest : List PDFProcessor.PageInfo),
      PDFProcessor.get_page_for_position 0 (p :: rest) = p.page) ∧
    (∀ (p : PDFProcessor.PageInfo) (rest : List PDFProcessor.PageInfo) (pos : Nat),
      p.char_count + 2 ≤ pos → rest ≠ [] →
      PDFProcessor.get_page_for_position pos (p :: rest) =
        PDFProcessor.get_page_for_position (pos - (p.char_count + 2)) rest) ∧
    (∀ (pages : List PDFProcessor.PageInfo) (pos : Nat),
      PDFProcessor.pageSpan pages ≤ pos →
      PDFProcessor.get_page_for_position pos pages =
        ((pages.getLast?).map PDFProcessor.PageInfo.page).getD 1) ∧
    (∀ pos : Nat, PDFProcessor.get_page_for_position pos [] = 1) := by
  have hfirst : ∀ (p : PDFProcessor.PageInfo) (rest : List PDFProcessor.PageInfo)
      (pos : Nat), pos < p.char_count + 2 →
      PDFProcessor.get_page_for_position pos (p :: rest) = p.page := by
    intro p rest pos h
    rw [PDFProcessor.get_page_for_position, PDFProcessor.pageLoop, if_pos (by omega)]
  refine ⟨hfirst, fun p rest => hfirst p rest 0 (by omega), ?_, ?_, fun pos => rfl⟩
  · intro p rest pos h hrest
    rw [PDFProcessor.get_page_for_position, PDFProcessor.pageLoop, if_neg (by omega)]
    have hpos : pos = (pos - (p.char_count + 2)) + (p.char_count + 2) := by omega
    have hcur : 0 + p.char_count + 2 = 0 + (p.char_count + 2) := by omega
    rw [hcur]
    conv_lhs => rw [hpos]
    rw [PDFProcessor.pageLoop_shift rest (pos - (p.char_count + 2)) 0 (p.char_count + 2)]
    rw [PDFProcessor.get_page_for_position]
    cases hloop : PDFProcessor.pageLoop (pos - (p.char_count + 2)) 0 rest with
    | some n => rfl
    | none =>
      cases rest with
      | nil => exact absurd rfl hrest
      | cons r rest' => rw [List.getLast?_cons_cons]
  · intro pages pos h
    rw [PDFProcessor.get_page_for_position,
      PDFProcessor.pageLoop_none pages pos 0 (by omega)]

/-- C6 witness: the first-page case applied to a single recorded page
numbered 1 with three characters, at offset 3 (inside the page's
`3 + 2` span): the resolved page is 1. -/
theorem c6_page_resolution_witness :
    PDFProcessor.get_page_for_position 3 [⟨1, "abc".data, 3⟩] = 1 :=
  c6_page_resolution.1 ⟨1, "abc".data, 3⟩ [] 3 (by decide)

/-! ## Lemmas about decimal rendering and the dedup key -/

theorem natReprAux_fuel :
    ∀ (f g n : Nat), n < f → n < g → natReprAux f n = natReprAux g n := by
  intro f
  induction f with
  | zero => omega
  | succ f ih =>
    intro g n hf hg
    cases g with
    | zero => omega
    | succ g =>
      rw [natReprAux, natReprAux]
      by_cases h10 : n < 10
      · rw [if_pos h10, if_pos h10]
      · rw [if_neg h10, if_neg h10]
        have hdiv := Nat.div_lt_self (by omega : 0 < n) (by omega : 1 < 10)
        rw [ih g (n / 10) (by omega) (by omega)]

theorem natRepr_small (n : Nat) (h : n < 10) : natRepr n = [digitCh n] := by
  rw [natRepr, natReprAux, if_pos h]

theorem natRepr_big (n : Nat) (h : 10 ≤ n) :
    natRepr n = natRepr (n / 10) ++ [digitCh (n % 10)] := by
  rw [natRepr, natReprAux, if_neg (by omega)]
  have hdiv := Nat.div_lt_self (by omega : 0 < n) (by omega : 1 < 10)
  rw [natReprAux_fuel n (n / 10 + 1) (n / 10) (by omega) (by omega)]
  rfl

theorem digitCh_isDigit : ∀ m, m < 10 → (digitCh m).isDigit = true := by decide

theorem digitCh_injOn : ∀ m, m < 10 → ∀ k, k < 10 → digitCh m = digitCh k → m = k := by
  decide

theorem natRepr_ne_nil (n : Nat) : natRepr n ≠ [] := by
  by_cases h : n < 10
  · rw [natRepr_small n h]
    exact List.cons_ne_nil _ _
  · rw [natRepr_big n (by omega)]
    simp

theorem natRepr_isDigit (n : Nat) : ∀ c ∈ natRepr n, c.isDigit = true := by
  induction n using Nat.strong_induction_on with
  | _ n ih =>
    intro c hc
    by_cases h : n < 10
    · rw [natRepr_small n h] at hc
      rcases List.mem_singleton.mp hc with rfl
      exact digitCh_isDigit n h
    · rw [natRepr_big n (by omega)] at hc
      rcases List.mem_append.mp hc with hc | hc
      · have hdiv := Nat.div_lt_self (by omega : 0 < n) (by omega : 1 < 10)
        exact ih (n / 10) hdiv c hc
      · rcases List.mem_singleton.mp hc with rfl
        exact digitCh_isDigit _ (Nat.mod_lt n (by omega))

theorem natRepr_inj : ∀ m n : Nat, natRepr m = natRepr n → m = n := by
  intro m
  induction m using Nat.strong_induction_on with
  | _ m ih =>
    intro n h
    by_cases hm : m < 10 <;> by_cases hn : n < 10
    · rw [natRepr_small m hm, natRepr_small n hn] at h
      exact digitCh_injOn m hm n hn (List.cons.inj h).1
    · rw [natRepr_small m hm, natRepr_big n (by omega)] at h
      have hlen := congrArg List.length h
      rw [List.length_append, List.length_singleton, List.length_singleton] at hlen
      have : natRepr (n / 10) = [] := List.eq_nil_of_length_eq_zero (by omega)
      exact absurd this (natRepr_ne_nil _)
    · rw [natRepr_big m (by omega), natRepr_small n hn] at h
      have hlen := congrArg List.length h
      rw [List.length_append, List.length_singleton, List.length_singleton] at hlen
      have : natRepr (m / 10) = [] := List.eq_nil_of_length_eq_zero (by omega)
      exact absurd this (natRepr_ne_nil _)
    · rw [natRepr_big m (by omega), natRepr_big n (by omega)] at h
      obtain ⟨h1, h2⟩ := List.append_inj' h rfl
      have hdiv := Nat.div_lt_self (by omega : 0 < m) (by omega : 1 < 10)
      have hq : m / 10 = n / 10 := ih (m / 10) hdiv (n / 10) h1
      have hr : m % 10 = n % 10 :=
        digitCh_injOn _ (Nat.mod_lt m (by omega)) _ (Nat.mod_lt n (by omega))
          (List.cons.inj h2).1
      have hm10 := Nat.div_add_mod m 10
      have hn10 := Nat.div_add_mod n 10
      omega

theorem digits_sep_inj :
    ∀ (d1 d2 x y : List Char) (a : Char), a.isDigit = false →
      (∀ c ∈ d1, c.isDigit = true) → (∀ c ∈ d2, c.isDigit = true) →
      d1 ++ a :: x = d2 ++ a :: y → d1 = d2 ∧ x = y := by
  intro d1
  induction d1 with
  | nil =>
    intro d2 x y a ha h1 h2 h
    cases d2 with
    | nil =>
      rw [List.nil_append, List.nil_append] at h
      exact ⟨rfl, (List.cons.inj h).2⟩
    | cons c2 rest2 =>
      rw [List.nil_append, List.cons_append] at h
      have hac : a = c2 := (List.cons.inj h).1
      have := h2 c2 (List.mem_cons_self _ _)
      rw [← hac, ha] at this
      cases this
  | cons c1 rest1 ih =>
    intro d2 x y a ha h1 h2 h
    cases d2 with
    | nil =>
      rw [List.cons_append, List.nil_append] at h
      have hac : c1 = a := (List.cons.inj h).1
      have := h1 c1 (List.mem_cons_self _ _)
      rw [hac, ha] at this
      cases this
    | cons c2 rest2 =>
      rw [List.cons_append, List.cons_append] at h
      obtain ⟨hc, ht⟩ := List.cons.inj h
      obtain ⟨hd, hxy⟩ := ih rest2 x y a ha
        (fun c hc => h1 c (List.mem_cons_of_mem _ hc))
        (fun c hc => h2 c (List.mem_cons_of_mem _ hc)) ht
      exact ⟨by rw [hc, hd], hxy⟩

theorem sourceKey_inj :
    ∀ (s1 s2 : List Char) (p1 p2 : Nat),
      s1 ++ '_' :: 'p' :: natRepr p1 = s2 ++ '_' :: 'p' :: natRepr p2 →
      s1 = s2 ∧ p1 = p2 := by
  intro s1 s2 p1 p2 h
  have h' : (natRepr p1).reverse ++ 'p' :: '_' :: s1.reverse =
      (natRepr p2).reverse ++ 'p' :: '_' :: s2.reverse := by
    have hrev := congrArg List.reverse h
    simp only [List.reverse_append, List.reverse_cons, List.append_assoc,
      List.cons_append, List.nil_append] at hrev
    simpa using hrev
  obtain ⟨hd, hrest⟩ := digits_sep_inj (natRepr p1).reverse (natRepr p2).reverse
    ('_' :: s1.reverse) ('_' :: s2.reverse) 'p' (by decide)
    (fun c hc => natRepr_isDigit p1 c (List.mem_reverse.mp hc))
    (fun c hc => natRepr_isDigit p2 c (List.mem_reverse.mp hc)) h'
  refine ⟨?_, ?_⟩
  · have := (List.cons.inj hrest).2
    have := congrArg List.reverse this
    simpa using this
  · exact natRepr_inj p1 p2 (by
      have := congrArg List.reverse hd
      simpa using this)

/-! ## Lemmas about the retrieval assembler and the store -/

namespace RAGService

theorem queryLoop_fst :
    ∀ (results : List RResult) (i : Nat) (seen : List (List Char)),
      (queryLoop results i seen).1 = renderAll results i := by
  intro results
  induction results with
  | nil => intro i seen; rfl
  | cons r rest ih =>
    intro i seen
    rw [queryLoop, renderAll]
    split
    · rw [← ih (i + 1) seen]
    · rw [← ih (i + 1) (sourceKey r.metadata :: seen)]

theorem queryLoop_snd :
    ∀ (results : List RResult) (i : Nat) (seen : List (List Char))
      (pairs : List (List Char × Nat)),
      (∀ (s : List Char) (p : Nat), s ++ '_' :: 'p' :: natRepr p ∈ seen ↔ (s, p) ∈ pairs) →
      (queryLoop results i seen).2 = specSources results pairs := by
  intro results
  induction results with
  | nil => intro i seen pairs _; rfl
  | cons r rest ih =>
    intro i seen pairs hinv
    rw [queryLoop, specSources]
    by_cases hmem : sourceKey r.metadata ∈ seen
    · have hpair : (r.metadata.source, r.metadata.page) ∈ pairs :=
        (hinv r.metadata.source r.metadata.page).mp hmem
      rw [if_pos hmem, if_pos hpair]
      exact ih (i + 1) seen pairs hinv
    · have hpair : (r.metadata.source, r.metadata.page) ∉ pairs :=
        fun habs => hmem ((hinv r.metadata.source r.metadata.page).mpr habs)
      rw [if_neg hmem, if_neg hpair]
      dsimp only
      congr 1
      refine ih (i + 1) (sourceKey r.metadata :: seen)
        ((r.metadata.source, r.metadata.page) :: pairs) ?_
      intro s p
      rw [List.mem_cons, List.mem_cons]
      constructor
      · intro hk
        rcases hk with hk | hk
        · rw [sourceKey] at hk
          obtain ⟨hs, hp⟩ := sourceKey_inj s r.metadata.source p r.metadata.page hk
          left
          rw [hs, hp]
        · right
          exact (hinv s p).mp hk
      · intro hp'
        rcases hp' with hp' | hp'
        · have hs := congrArg Prod.fst hp'
          have hpg := congrArg Prod.snd hp'
          dsimp only at hs hpg
          left
          rw [sourceKey, hs, hpg]
        · right
          exact (hinv s p).mpr hp'

end RAGService

namespace RAGService

theorem queryLoop_snd_sub :
    ∀ (results : List RResult) (i : Nat) (seen : List (List Char)) (s : SourceRec),
      s ∈ (queryLoop results i seen).2 → ∃ r ∈ results, s = mkSource r := by
  intro results
  induction results with
  | nil => intro i seen s h; cases h
  | cons r rest ih =>
    intro i seen s h
    rw [queryLoop] at h
    split at h
    · obtain ⟨r', hr', hs⟩ := ih (i + 1) seen s h
      exact ⟨r', List.mem_cons_of_mem r hr', hs⟩
    · rcases List.mem_cons.mp h with hs | hs
      · exact ⟨r, List.mem_cons_self r rest, hs⟩
      · obtain ⟨r', hr', hs'⟩ := ih (i + 1) (sourceKey r.metadata :: seen) s hs
        exact ⟨r', List.mem_cons_of_mem r hr', hs'⟩

end RAGService

/-- C7: for a non-empty ranked result list, `query` renders every
result `i` as `"[i] <text>"` — numbered `1..N` in rank order and joined
with a blank line, duplicates included — while `sources` keeps exactly
the first occurrence of each distinct `(source, page)` pair (the
f-string key `f"{source}_p{page}"` identifies the pair: the decimal
page digits cannot absorb the `"_p"` separator, so distinct pairs have
distinct keys). -/
theorem c7_context_and_dedup :
    ∀ results : List RAGService.RResult, results ≠ [] →
      (RAGService.query results).context = RAGService.specContext results ∧
      (RAGService.query results).sources = RAGService.specSources results [] := by
  intro results h
  rw [RAGService.query, if_neg (by simpa [List.isEmpty_iff] using h)]
  constructor
  · rw [RAGService.specContext, RAGService.queryLoop_fst results 1 []]
  · exact RAGService.queryLoop_snd results 1 [] [] (by intro s p; simp)

/-- The two ranked results of the C7 witness: identical
`(source, page)`, different chunks. -/
def c7r1 : RAGService.RResult := ⟨"t1".data, ⟨"d".data, "f".data, 1, 0⟩, none⟩

/-- Second result of the C7 witness, same `(source, page)` pair as
`c7r1`. -/
def c7r2 : RAGService.RResult := ⟨"t2".data, ⟨"d".data, "f".data, 1, 1⟩, none⟩

/-- C7 witness: on two results with the same `(source, page)` pair the
context keeps both numbered entries and `sources` keeps only the
first. -/
theorem c7_context_and_dedup_witness :
    (RAGService.query [c7r1, c7r2]).context = RAGService.specContext [c7r1, c7r2] ∧
    (RAGService.query [c7r1, c7r2]).sources = RAGService.specSources [c7r1, c7r2] [] ∧
    RAGService.specContext [c7r1, c7r2] = ("[1] t1\n\n[2] t2".data) ∧
    RAGService.specSources [c7r1, c7r2] [] = [RAGService.mkSource c7r1] :=
  ⟨(c7_context_and_dedup [c7r1, c7r2] (List.cons_ne_nil _ _)).1,
    (c7_context_and_dedup [c7r1, c7r2] (List.cons_ne_nil _ _)).2,
    by decide, by decide⟩

/-- C9: every record kept in `sources` comes from one of the ranked
results and carries `relevance_score = 1 - distance` exactly when the
distance is present and non-zero, `None` when the distance is missing
or exactly `0` (Python falsiness), and — since nothing clamps — a
cosine distance `d` with `1 < d ≤ 2` yields the negative score
`1 - d`. -/
theorem c9_relevance_score :
    ∀ (results : List RAGService.RResult) (s : RAGService.SourceRec),
      s ∈ (RAGService.query results).sources →
      ∃ r ∈ results, s = RAGService.mkSource r ∧
        (r.distance = none → s.relevance_score = none) ∧
        (∀ d : ℚ, r.distance = some d → d = 0 → s.relevance_score = none) ∧
        (∀ d : ℚ, r.distance = some d → d ≠ 0 → s.relevance_score = some (1 - d)) ∧
        (∀ d : ℚ, r.distance = some d → 1 < d → d ≤ 2 →
          s.relevance_score = some (1 - d) ∧ 1 - d < 0) := by
  intro results s hs
  have hsub : ∃ r ∈ results, s = RAGService.mkSource r := by
    rw [RAGService.query] at hs
    split at hs
    · cases hs
    · exact RAGService.queryLoop_snd_sub results 1 [] s hs
  obtain ⟨r, hr, hsr⟩ := hsub
  refine ⟨r, hr, hsr, ?_, ?_, ?_, ?_⟩
  · intro hd
    rw [hsr]
    simp [RAGService.mkSource, hd]
  · intro d hd hd0
    rw [hsr]
    simp [RAGService.mkSource, hd, hd0]
  · intro d hd hd0
    rw [hsr]
    simp [RAGService.mkSource, hd, hd0]
  · intro d hd hd1 hd2
    rw [hsr]
    refine ⟨by simp [RAGService.mkSource, hd, (by linarith : d ≠ 0)], by linarith⟩

/-- The single ranked result of the C9 witness, with cosine distance 2
(the antipodal extreme of the `[0, 2]` range). -/
def c9r : RAGService.RResult := ⟨"t".data, ⟨"d".data, "f".data, 1, 0⟩, some 2⟩

/-- C9 witness: with distance `2` the kept source's relevance score is
the negative value `1 - 2`. -/
theorem c9_relevance_score_witness :
    (RAGService.mkSource c9r).relevance_score = some (1 - (2 : ℚ)) ∧
      (1 : ℚ) - 2 < 0 := by
  have hmem : RAGService.mkSource c9r ∈ (RAGService.query [c9r]).sources := by
    rw [RAGService.query, if_neg (by simp), RAGService.queryLoop]
    rw [if_neg (by simp)]
    exact List.mem_cons_self _ _
  obtain ⟨r, hr, hsr, _, _, _, h5⟩ := c9_relevance_score [c9r] (RAGService.mkSource c9r) hmem
  rcases List.mem_singleton.mp hr with rfl
  have := h5 2 rfl (by norm_num) (by norm_num)
  exact ⟨by rw [hsr]; exact this.1, this.2⟩

namespace Vectorizer

theorem mem_keys_upsert_self (s : Store) (k : List Char) (v : VChunk) :
    k ∈ keys (upsert s k v) := by
  induction s with
  | nil => exact List.mem_cons_self _ _
  | cons kv rest ih =>
    obtain ⟨k', v'⟩ := kv
    rw [upsert]
    split
    · exact List.mem_cons_self _ _
    · exact List.mem_cons_of_mem _ ih

theorem mem_keys_upsert_of_mem (s : Store) (k k' : List Char) (v : VChunk)
    (h : k' ∈ keys s) : k' ∈ keys (upsert s k v) := by
  induction s with
  | nil => cases h
  | cons kv rest ih =>
    obtain ⟨k0, v0⟩ := kv
    rw [upsert]
    split
    · rename_i heq
      rcases List.mem_cons.mp h with hk | hk
      · rw [hk, heq]
        exact List.mem_cons_self _ _
      · exact List.mem_cons_of_mem _ hk
    · rcases List.mem_cons.mp h with hk | hk
      · rw [hk]
        exact List.mem_cons_self _ _
      · exact List.mem_cons_of_mem _ (ih hk)

theorem keys_upsert_of_mem (s : Store) (k : List Char) (v : VChunk)
    (h : k ∈ keys s) : keys (upsert s k v) = keys s := by
  induction s with
  | nil => cases h
  | cons kv rest ih =>
    obtain ⟨k0, v0⟩ := kv
    rw [upsert]
    split
    · rename_i heq
      rw [keys, keys, List.map_cons, List.map_cons]
      rw [heq]
    · rename_i hne
      rcases List.mem_cons.mp h with hk | hk
      · exact absurd hk.symm hne
      · rw [keys, keys, List.map_cons, List.map_cons]
        have ih' : List.map Prod.fst (upsert rest k v) = List.map Prod.fst rest := ih hk
        rw [ih']

/-- The fold at the heart of `add_documents`. -/
def addAll (s : Store) (chunks : List VChunk) : Store :=
  chunks.foldl (fun st c => upsert st (chunkId c.metadata) c) s

theorem add_documents_eq_addAll (s : Store) (chunks : List VChunk)
    (h : chunks ≠ []) : add_documents s chunks = addAll s chunks := by
  rw [add_documents, if_neg (by simpa [List.isEmpty_iff] using h)]
  rfl

theorem mem_keys_addAll_of_mem (chunks : List VChunk) :
    ∀ (s : Store) (k : List Char), k ∈ keys s → k ∈ keys (addAll s chunks) := by
  induction chunks with
  | nil => intro s k h; exact h
  | cons c rest ih =>
    intro s k h
    rw [addAll, List.foldl_cons]
    exact ih _ k (mem_keys_upsert_of_mem s _ k c h)

theorem ids_mem_keys_addAll (chunks : List VChunk) :
    ∀ (s : Store), ∀ c ∈ chunks, chunkId c.metadata ∈ keys (addAll s chunks) := by
  induction chunks with
  | nil => intro s c h; cases h
  | cons c0 rest ih =>
    intro s c h
    rcases List.mem_cons.mp h with hc | hc
    · rw [addAll, List.foldl_cons]
      rw [hc]
      exact mem_keys_addAll_of_mem rest _ _ (mem_keys_upsert_self s _ c0)
    · rw [addAll, List.foldl_cons]
      exact ih _ c hc

theorem keys_addAll_of_all_mem (chunks : List VChunk) :
    ∀ (s : Store), (∀ c ∈ chunks, chunkId c.metadata ∈ keys s) →
      keys (addAll s chunks) = keys s := by
  induction chunks with
  | nil => intro s _; rfl
  | cons c0 rest ih =>
    intro s h
    rw [addAll, List.foldl_cons]
    have h0 : keys (upsert s (chunkId c0.metadata) c0) = keys s :=
      keys_upsert_of_mem s _ c0 (h c0 (List.mem_cons_self _ _))
    rw [show (rest.foldl (fun st c => upsert st (chunkId c.metadata) c)
        (upsert s (chunkId c0.metadata) c0)) =
      addAll (upsert s (chunkId c0.metadata) c0) rest from rfl]
    rw [ih _ (fun c hc => by rw [h0]; exact h c (List.mem_cons_of_mem _ hc)), h0]

theorem length_eq_length_keys (s : Store) : s.length = (keys s).length :=
  (List.length_map s Prod.fst).symm

end Vectorizer

/-- C8: `add_documents` derives each record id deterministically from
the metadata's `source` and `chunk_index`; storing under an existing id
overwrites, so re-ingesting the same chunk list leaves the set of
record ids and the total stored count unchanged, and every ingested
chunk's id is present after the call. -/
theorem c8_reingest_same_ids :
    ∀ (s : Vectorizer.Store) (chunks : List Vectorizer.VChunk),
      Vectorizer.keys (Vectorizer.add_documents (Vectorizer.add_documents s chunks) chunks) =
        Vectorizer.keys (Vectorizer.add_documents s chunks) ∧
      (Vectorizer.add_documents (Vectorizer.add_documents s chunks) chunks).length =
        (Vectorizer.add_documents s chunks).length ∧
      (∀ c ∈ chunks, Vectorizer.chunkId c.metadata ∈
        Vectorizer.keys (Vectorizer.add_documents s chunks)) ∧
      (∀ m1 m2 : Vectorizer.VMeta, m1.source = m2.source →
        m1.chunk_index = m2.chunk_index →
        Vectorizer.chunkId m1 = Vectorizer.chunkId m2) := by
  intro s chunks
  by_cases hnil : chunks = []
  · subst hnil
    refine ⟨rfl, rfl, ?_, ?_⟩
    · intro c h
      cases h
    · intro m1 m2 h1 h2
      rw [Vectorizer.chunkId, Vectorizer.chunkId, h1, h2]
  · have he := Vectorizer.add_documents_eq_addAll s chunks hnil
    have hall : ∀ c ∈ chunks, Vectorizer.chunkId c.metadata ∈
        Vectorizer.keys (Vectorizer.add_documents s chunks) := by
      intro c hc
      rw [he]
      exact Vectorizer.ids_mem_keys_addAll chunks s c hc
    have hkeys : Vectorizer.keys
        (Vectorizer.add_documents (Vectorizer.add_documents s chunks) chunks) =
        Vectorizer.keys (Vectorizer.add_documents s chunks) := by
      rw [Vectorizer.add_documents_eq_addAll (Vectorizer.add_documents s chunks) chunks hnil]
      exact Vectorizer.keys_addAll_of_all_mem chunks _ hall
    refine ⟨hkeys, ?_, hall, ?_⟩
    · rw [Vectorizer.length_eq_length_keys, Vectorizer.length_eq_length_keys, hkeys]
    · intro m1 m2 h1 h2
      rw [Vectorizer.chunkId, Vectorizer.chunkId, h1, h2]

/-- C8 witness: the deterministic id of `("s", 1)` is stored after
ingesting one chunk with that metadata into the empty store. -/
theorem c8_reingest_same_ids_witness :
    Vectorizer.chunkId ⟨"s".data, 1⟩ = Vectorizer.chunkId ⟨"s".data, 1⟩ ∧
    Vectorizer.chunkId ⟨"s".data, 1⟩ ∈ Vectorizer.keys
      (Vectorizer.add_documents [] [⟨"t".data, ⟨"s".data, 1⟩⟩]) :=
  ⟨(c8_reingest_same_ids [] []).2.2.2 ⟨"s".data, 1⟩ ⟨"s".data, 1⟩ rfl rfl,
    (c8_reingest_same_ids [] [⟨"t".data, ⟨"s".data, 1⟩⟩]).2.2.1
      ⟨"t".data, ⟨"s".data, 1⟩⟩ (List.mem_cons_self _ _)⟩

